import Mathlib

/-!
Verification development for `split_nsp.py`, a tool that splits large archive
files (NSP/NSZ/XCI) into fixed-size, sequentially numbered parts.

The Python source is shallowly embedded below:
* paths are `List Char`, mirroring `os.path` string manipulation
  (`posixpath.splitext`, `basename`, `dirname`, `join`);
* the filesystem is an explicit state (`FS`): an association list from paths
  to byte contents plus a list of existing directories;
* bytes are `Nat`; machine-level byte values never overflow here;
* the buffered copy loop is parameterised by a read oracle
  `readFn : position → requested → returned`, so both the deterministic
  regular-file behaviour (`fileRead`) and arbitrary short-read sequences can
  be analysed;
* Python exceptions become `Except` results carrying the filesystem state at
  the moment the exception is raised.
-/

set_option autoImplicit false

namespace NspSplit

/-- A filesystem path, as the list of its characters. -/
abbrev Path := List Char

/-- Index of the last occurrence of `c` in a list (Python `str.rfind`,
with `none` for the `-1` sentinel). -/
def lastIdx (c : Char) : List Char → Option Nat
  | [] => none
  | x :: xs =>
    match lastIdx c xs with
    | some i => some (i + 1)
    | none => if x = c then some 0 else none

/-- Model of `posixpath.splitext`: split off the final extension.  The
extension starts at the last dot, provided that dot comes after the last
path separator and the basename has at least one non-dot character before
the dot (so dotfiles such as `.bashrc` have no extension). -/
def splitext (p : Path) : Path × Path :=
  match lastIdx '.' p with
  | none => (p, [])
  | some dotIndex =>
    let fStart : Nat :=
      match lastIdx '/' p with
      | none => 0
      | some sepIndex => sepIndex + 1
    if fStart ≤ dotIndex then
      if ((p.drop fStart).take (dotIndex - fStart)).any (fun c => c ≠ '.') then
        (p.take dotIndex, p.drop dotIndex)
      else (p, [])
    else (p, [])

/-- Model of `posixpath.basename`: everything after the last `/`. -/
def basename (p : Path) : Path :=
  match lastIdx '/' p with
  | none => p
  | some i => p.drop (i + 1)

/-- Model of `posixpath.dirname`: everything up to the last `/`, with
trailing separators stripped unless the result is all separators. -/
def dirname (p : Path) : Path :=
  let i : Nat :=
    match lastIdx '/' p with
    | none => 0
    | some j => j + 1
  let head := p.take i
  if head ≠ [] ∧ head.any (fun c => c ≠ '/') then
    (head.reverse.dropWhile (fun c => c = '/')).reverse
  else head

/-- Model of `posixpath.join` for two components. -/
def joinPath (a b : Path) : Path :=
  if b.head? = some '/' then b
  else if a = [] ∨ a.getLast? = some '/' then a ++ b
  else a ++ '/' :: b

/-- Decimal digit list of a natural number (Python `f"{n:d}"`). -/
def decDigits (n : Nat) : List Char :=
  if _h : n < 10 then [Nat.digitChar n]
  else decDigits (n / 10) ++ [Nat.digitChar (n % 10)]
termination_by n
decreasing_by
  exact Nat.div_lt_self (by omega) (by omega)

/-- Python `f"{n:02d}"`: decimal digits zero-padded to width at least 2. -/
def pad2 (n : Nat) : List Char :=
  if n < 10 then '0' :: [Nat.digitChar n] else decDigits n

/-- Embedding of `build_part_name` from `split_nsp.py`: insert `.NN` before
the final extension, or append it when there is no extension. -/
def build_part_name (base_path : Path) (index : Nat) : Path :=
  let se := splitext base_path
  let suffix := '.' :: pad2 index
  if se.2 ≠ [] then se.1 ++ suffix ++ se.2
  else base_path ++ suffix

/-- Python `str.strip` (ASCII whitespace model). -/
def pyStrip (s : List Char) : List Char :=
  ((s.dropWhile Char.isWhitespace).reverse.dropWhile Char.isWhitespace).reverse

/-- Python `str.lower` (ASCII model). -/
def pyLower (s : List Char) : List Char := s.map Char.toLower

/-- Numeric value of a list of decimal digit characters. -/
def digitsVal (l : List Char) : Nat :=
  l.foldl (fun a c => a * 10 + (c.toNat - 48)) 0

/-- Model of Python `float(s)` restricted to plain decimal literals
`[sign] digits [. digits]`.  The value is kept exactly as
`(negative?, numerator, denominator)` with the denominator a power of ten.
All inputs the program's size parser meets in the verified statements are
short integer literals, on which IEEE doubles are exact, so this exact
model agrees with CPython there. -/
def parseDecLit (s : List Char) : Option (Bool × Nat × Nat) :=
  let signed : Bool × List Char :=
    match s with
    | '+' :: r => (false, r)
    | '-' :: r => (true, r)
    | r => (false, r)
  let intPart := signed.2.takeWhile Char.isDigit
  let rest := signed.2.dropWhile Char.isDigit
  match rest with
  | [] => if intPart = [] then none else some (signed.1, digitsVal intPart, 1)
  | '.' :: fracPart =>
    if fracPart.all Char.isDigit ∧ (intPart ≠ [] ∨ fracPart ≠ []) then
      some (signed.1,
        digitsVal intPart * 10 ^ fracPart.length + digitsVal fracPart,
        10 ^ fracPart.length)
    else none
  | _ => none

/-- The suffix table of `parse_size`, in the order produced by
`sorted(suffixes, key=len, reverse=True)` (stable sort of the dict's
insertion order): length-3 suffixes first, then length-2, then length-1. -/
def SUFFIXES : List (List Char × Nat) :=
  [("kib".data, 1024), ("mib".data, 1024 ^ 2), ("gib".data, 1024 ^ 3), ("tib".data, 1024 ^ 4),
   ("kb".data, 1000), ("mb".data, 1000 ^ 2), ("gb".data, 1000 ^ 3), ("tb".data, 1000 ^ 4),
   ("k".data, 1024), ("m".data, 1024 ^ 2), ("g".data, 1024 ^ 3), ("t".data, 1024 ^ 4)]

/-- First table entry whose suffix ends the string (`str.endswith`). -/
def findSuffix : List (List Char × Nat) → List Char → Option (List Char × Nat)
  | [], _ => none
  | (suf, mult) :: rest, s =>
    if suf.isSuffixOf s then some (suf, mult) else findSuffix rest s

/-- Embedding of `parse_size` from `split_nsp.py`.  `none` models a raised
exception (`ArgumentTypeError` for a bad or non-positive size, `ValueError`
from `float`); `some n` is the returned byte count.  The Python
`number <= 0` test becomes `neg ∨ numv = 0`, and `int(number * mult)`
(truncation of a positive value) becomes Nat division by the power-of-ten
denominator. -/
def parse_size (value : List Char) : Option Nat :=
  let stripped := pyLower (pyStrip value)
  if stripped ≠ [] ∧ stripped.all Char.isDigit then
    some (digitsVal stripped)
  else
    match findSuffix SUFFIXES stripped with
    | none => none
    | some (suf, mult) =>
      match parseDecLit (stripped.take (stripped.length - suf.length)) with
      | none => none
      | some (neg, numv, den) =>
        if neg = true ∨ numv = 0 then none
        else some (numv * mult / den)

example : parse_size ("2G".data) = some 2147483648 := by decide
example : parse_size ("512MiB".data) = some 536870912 := by decide
example : parse_size ("1024".data) = some 1024 := by decide
example : parse_size ("abc".data) = none := by decide
example : parse_size ("0".data) = some 0 := by decide
example : parse_size ("0k".data) = none := by decide
example : build_part_name ("game.nsp".data) 0 = "game.00.nsp".data := by decide
example : build_part_name ("game".data) 7 = "game.07".data := by decide

/-! ## Filesystem model -/

/-- Errors raised by the splitter (`SplitError` in the source). -/
inductive SplitError where
  | refusingToOverwrite (path : Path)
  | unexpectedEndOfFile
deriving DecidableEq

/-- Association-list lookup for file contents. -/
def lookupA : List (Path × List Nat) → Path → Option (List Nat)
  | [], _ => none
  | (q, v) :: rest, p => if q = p then some v else lookupA rest p

/-- Association-list update: replace in place, or append a new binding. -/
def setA : List (Path × List Nat) → Path → List Nat → List (Path × List Nat)
  | [], p, v => [(p, v)]
  | (q, w) :: rest, p, v =>
    if q = p then (p, v) :: rest else (q, w) :: setA rest p v

/-- A filesystem snapshot: regular files with their byte contents, and the
set of existing directories. -/
structure FS where
  files : List (Path × List Nat)
  dirs : List Path
deriving DecidableEq

/-- Content of the file at `p`, if any. -/
def FS.lookupFile (fs : FS) (p : Path) : Option (List Nat) :=
  lookupA fs.files p

/-- Model of `os.path.exists`. -/
def FS.pathExists (fs : FS) (p : Path) : Bool :=
  (fs.lookupFile p).isSome || decide (p ∈ fs.dirs)

/-- Model of `os.makedirs(d, exist_ok=True)` (parent creation is not
tracked; no claim depends on it). -/
def FS.makedirs (fs : FS) (d : Path) : FS :=
  if d ∈ fs.dirs then fs else ⟨fs.files, d :: fs.dirs⟩

/-- Create or truncate-and-write the file at `p`. -/
def FS.writeFile (fs : FS) (p : Path) (content : List Nat) : FS :=
  ⟨setA fs.files p content, fs.dirs⟩

/-- Decidable equality of `Except` results, for evaluating the engine on
concrete inputs. -/
instance exceptDecEq {ε α : Type} [DecidableEq ε] [DecidableEq α] :
    DecidableEq (Except ε α) := fun x y =>
  match x, y with
  | .ok a, .ok b =>
    if h : a = b then isTrue (by rw [h])
    else isFalse (by intro hc; cases hc; exact h rfl)
  | .error a, .error b =>
    if h : a = b then isTrue (by rw [h])
    else isFalse (by intro hc; cases hc; exact h rfl)
  | .ok _, .error _ => isFalse (by intro hc; cases hc)
  | .error _, .ok _ => isFalse (by intro hc; cases hc)

/-! ## The chunked copy engine -/

/-- `READ_BUFFER = 8 * 1024**2` from the source. -/
def READ_BUFFER : Nat := 8 * 1024 ^ 2

/-- `DEFAULT_CHUNK_SIZE = 4_000_000_000` from the source. -/
def DEFAULT_CHUNK_SIZE : Nat := 4000000000

/-- Read behaviour of a regular local file: `readinto` returns
`min(requested, bytes left in the file)`. -/
def fileRead (src : List Nat) (pos toRead : Nat) : Nat :=
  min toRead (src.length - pos)

/-- Embedding of the inner `while part_bytes < remaining` loop of
`split_file`, by structural recursion on a fuel bound (the loop itself
terminates because every non-final iteration reads at least one byte; the
fuel chosen in `copyLoop` is proven sufficient by the lemmas below, so the
`none` fuel-exhaustion result never occurs there).

`readFn pos toRead` is the byte count returned by `source.readinto` at
offset `pos` when asked for `toRead` bytes; the bytes appended to the part
are the corresponding slice of the source.  An `error` result models the
`SplitError("Unexpected end of file")` raised on a zero-byte read,
carrying the file offset and the partial part content written up to that
point. -/
def copyLoopF (readFn : Nat → Nat → Nat) (src : List Nat) (remaining : Nat) :
    Nat → Nat → Nat → List Nat →
    Option (Except (Nat × List Nat) (Nat × List Nat))
  | 0, _, _, _ => none
  | fuel + 1, pos, partBytes, acc =>
    if partBytes < remaining then
      match readFn pos (min READ_BUFFER (remaining - partBytes)) with
      | 0 => some (.error (pos, acc))
      | r + 1 =>
        copyLoopF readFn src remaining fuel (pos + (r + 1)) (partBytes + (r + 1))
          (acc ++ (src.drop pos).take (r + 1))
    else some (.ok (pos, acc))

/-- The copy loop with sufficient fuel: at most `remaining - partBytes`
iterations recurse, so this fuel bound is never exhausted. -/
def copyLoop (readFn : Nat → Nat → Nat) (src : List Nat) (remaining : Nat)
    (pos partBytes : Nat) (acc : List Nat) :
    Option (Except (Nat × List Nat) (Nat × List Nat)) :=
  copyLoopF readFn src remaining (remaining - partBytes + 1) pos partBytes acc

/-- Embedding of the `for index in range(total_parts)` loop of
`split_file`'s write step.  State: the list of indices still to process,
the source read offset (`source.tell()`), the filesystem, and the `parts`
accumulator.  Each iteration re-checks the conflict condition against the
current filesystem, opens (creates empty) the part file, runs the copy
loop, and records the part.  A `none` result only propagates the
copy loop's unreachable fuel exhaustion. -/
def writeLoop (readFn : Nat → Nat → Nat) (src : List Nat)
    (chunk_size file_size : Nat) (output_base : Path) (overwrite : Bool) :
    List Nat → Nat → FS → List Path →
    Option (Except (SplitError × FS) (List Path × FS))
  | [], _, fs, parts => some (.ok (parts, fs))
  | index :: rest, pos, fs, parts =>
    let part_path := build_part_name output_base index
    if fs.pathExists part_path && !overwrite then
      some (.error (.refusingToOverwrite part_path, fs))
    else
      let remaining := min chunk_size (file_size - pos)
      let fs1 := fs.writeFile part_path []
      match copyLoop readFn src remaining pos 0 [] with
      | none => none
      | some (.error e) =>
        some (.error (.unexpectedEndOfFile, fs1.writeFile part_path e.2))
      | some (.ok (pos2, content)) =>
        writeLoop readFn src chunk_size file_size output_base overwrite
          rest pos2 (fs1.writeFile part_path content) (parts ++ [part_path])

/-- Embedding of `split_file`.  The source bytes are looked up in the
filesystem (`os.path.getsize` / the `open` for reading).  The result is
either the raised `SplitError` with the filesystem at raise time, or the
returned parts list with the final filesystem, wrapped in the fuel
`Option` (`none` is unreachable, see `copyLoop`). -/
def split_file (fs : FS) (file_path : Path) (output_dir : Option Path)
    (chunk_size : Nat) (overwrite dry_run : Bool) :
    Option (Except (SplitError × FS) (List Path × FS)) :=
  let src := (fs.lookupFile file_path).getD []
  let file_size := src.length
  if file_size ≤ chunk_size then some (.ok ([], fs))
  else
    let out_dir := output_dir.getD (dirname file_path)
    let fs1 := fs.makedirs out_dir
    let base_name := basename file_path
    let output_base := joinPath out_dir base_name
    let total_parts := (file_size + chunk_size - 1) / chunk_size
    if dry_run then
      some (.ok ((List.range total_parts).map (build_part_name output_base), fs1))
    else
      writeLoop (fileRead src) src chunk_size file_size output_base overwrite
        (List.range total_parts) 0 fs1 []

example :
    split_file ⟨[("a.nsp".data, [0, 1, 2, 3, 4, 5, 6, 7, 8, 9])], ["o".data]⟩
      ("a.nsp".data) (some "o".data) 4 false false =
    some (.ok (["o/a.00.nsp".data, "o/a.01.nsp".data, "o/a.02.nsp".data],
      ⟨[("a.nsp".data, [0, 1, 2, 3, 4, 5, 6, 7, 8, 9]),
        ("o/a.00.nsp".data, [0, 1, 2, 3]),
        ("o/a.01.nsp".data, [4, 5, 6, 7]),
        ("o/a.02.nsp".data, [8, 9])], ["o".data]⟩)) := by decide

/-! ## Association list and filesystem lemmas -/

theorem lookupA_setA_self (l : List (Path × List Nat)) (p : Path) (v : List Nat) :
    lookupA (setA l p v) p = some v := by
  induction l with
  | nil => simp [setA, lookupA]
  | cons e rest ih =>
    obtain ⟨q, w⟩ := e
    by_cases h : q = p
    · simp [setA, h, lookupA]
    · simp [setA, h, lookupA, ih]

theorem lookupA_setA_ne (l : List (Path × List Nat)) (p q : Path) (v : List Nat)
    (h : q ≠ p) : lookupA (setA l p v) q = lookupA l q := by
  induction l with
  | nil =>
    simp only [setA, lookupA]
    rw [if_neg (fun hc => h hc.symm)]
  | cons e rest ih =>
    obtain ⟨a, w⟩ := e
    by_cases ha : a = p
    · subst ha
      simp only [setA, if_pos rfl, lookupA]
      rw [if_neg (fun hc => h hc.symm), if_neg (fun hc => h hc.symm)]
    · simp only [setA, if_neg ha, lookupA]
      by_cases haq : a = q
      · rw [if_pos haq, if_pos haq]
      · rw [if_neg haq, if_neg haq, ih]

theorem FS.lookupFile_writeFile_self (fs : FS) (p : Path) (v : List Nat) :
    (fs.writeFile p v).lookupFile p = some v :=
  lookupA_setA_self fs.files p v

theorem FS.lookupFile_writeFile_ne (fs : FS) (p q : Path) (v : List Nat)
    (h : q ≠ p) : (fs.writeFile p v).lookupFile q = fs.lookupFile q :=
  lookupA_setA_ne fs.files p q v h

theorem FS.files_makedirs (fs : FS) (d : Path) :
    (fs.makedirs d).files = fs.files := by
  unfold FS.makedirs
  split <;> rfl

theorem FS.lookupFile_makedirs (fs : FS) (d : Path) (p : Path) :
    (fs.makedirs d).lookupFile p = fs.lookupFile p := by
  unfold FS.lookupFile
  rw [FS.files_makedirs]

theorem FS.dirs_writeFile (fs : FS) (p : Path) (v : List Nat) :
    (fs.writeFile p v).dirs = fs.dirs := rfl

theorem FS.lookupFile_eq_none_of_not_pathExists (fs : FS) (p : Path)
    (h : fs.pathExists p = false) : fs.lookupFile p = none := by
  unfold FS.pathExists at h
  rcases Bool.or_eq_false_iff.1 h with ⟨h1, _⟩
  exact Option.not_isSome_iff_eq_none.1 (by simp [h1])

theorem FS.pathExists_writeFile_mono (fs : FS) (p q : Path) (v : List Nat)
    (h : fs.pathExists p = true) : (fs.writeFile q v).pathExists p = true := by
  unfold FS.pathExists at h ⊢
  rw [FS.dirs_writeFile]
  rcases Bool.or_eq_true_iff.1 h with h1 | h1
  · by_cases hpq : p = q
    · subst hpq
      simp [fs.lookupFile_writeFile_self p v]
    · rw [fs.lookupFile_writeFile_ne q p v hpq]
      simp [h1]
  · simp [h1]

theorem FS.pathExists_makedirs_mono (fs : FS) (d p : Path)
    (h : fs.pathExists p = true) : (fs.makedirs d).pathExists p = true := by
  unfold FS.makedirs
  split
  · exact h
  · unfold FS.pathExists FS.lookupFile at h ⊢
    simp only [List.mem_cons]
    rcases Bool.or_eq_true_iff.1 h with h1 | h1 <;> simp_all

/-! ## Copy loop lemmas -/

theorem copyLoopF_succ (readFn : Nat → Nat → Nat) (src : List Nat)
    (remaining fuel pos partBytes : Nat) (acc : List Nat) :
    copyLoopF readFn src remaining (fuel + 1) pos partBytes acc =
      if partBytes < remaining then
        match readFn pos (min READ_BUFFER (remaining - partBytes)) with
        | 0 => some (.error (pos, acc))
        | r + 1 =>
          copyLoopF readFn src remaining fuel (pos + (r + 1)) (partBytes + (r + 1))
            (acc ++ (src.drop pos).take (r + 1))
      else some (.ok (pos, acc)) := rfl

/-- With the deterministic regular-file read behaviour the copy loop
succeeds and transfers exactly the `remaining - partBytes` outstanding
bytes, provided the source still holds them. -/
theorem copyLoopF_det (src : List Nat) (remaining : Nat) :
    ∀ fuel pos partBytes acc, remaining - partBytes < fuel →
      remaining - partBytes ≤ src.length - pos →
      copyLoopF (fileRead src) src remaining fuel pos partBytes acc =
        some (.ok (pos + (remaining - partBytes),
          acc ++ (src.drop pos).take (remaining - partBytes))) := by
  intro fuel
  induction fuel with
  | zero => intro pos partBytes acc h1 _; omega
  | succ fuel ih =>
    intro pos partBytes acc h1 h2
    rw [copyLoopF_succ]
    by_cases hlt : partBytes < remaining
    · rw [if_pos hlt]
      have htr : 0 < min READ_BUFFER (remaining - partBytes) := by
        have : 0 < READ_BUFFER := by decide
        omega
      have hread : fileRead src pos (min READ_BUFFER (remaining - partBytes)) =
          min READ_BUFFER (remaining - partBytes) := by
        unfold fileRead
        omega
      obtain ⟨t, ht⟩ : ∃ t, min READ_BUFFER (remaining - partBytes) = t + 1 :=
        ⟨min READ_BUFFER (remaining - partBytes) - 1, by omega⟩
      have htle : t + 1 ≤ remaining - partBytes := by omega
      rw [hread, ht]
      have ih2 := ih (pos + (t + 1)) (partBytes + (t + 1))
        (acc ++ (src.drop pos).take (t + 1)) (by omega) (by omega)
      show copyLoopF (fileRead src) src remaining fuel (pos + (t + 1))
          (partBytes + (t + 1)) (acc ++ (src.drop pos).take (t + 1)) =
        some (.ok (pos + (remaining - partBytes),
          acc ++ (src.drop pos).take (remaining - partBytes)))
      rw [ih2]
      have hpos2 : pos + (t + 1) + (remaining - (partBytes + (t + 1))) =
          pos + (remaining - partBytes) := by omega
      have hdd : src.drop (pos + (t + 1)) = (src.drop pos).drop (t + 1) :=
        (List.drop_drop _ _ _).symm
      have hcontent : acc ++ (src.drop pos).take (t + 1) ++
            (src.drop (pos + (t + 1))).take (remaining - (partBytes + (t + 1))) =
          acc ++ (src.drop pos).take (remaining - partBytes) := by
        rw [List.append_assoc]
        congr 1
        rw [hdd, ← List.take_add]
        congr 1
        omega
      rw [hpos2, hcontent]
    · rw [if_neg hlt]
      have hz : remaining - partBytes = 0 := by omega
      simp [hz]

/-- `copyLoop` with the deterministic read behaviour. -/
theorem copyLoop_det (src : List Nat) (remaining pos partBytes : Nat)
    (acc : List Nat) (h : remaining - partBytes ≤ src.length - pos) :
    copyLoop (fileRead src) src remaining pos partBytes acc =
      some (.ok (pos + (remaining - partBytes),
        acc ++ (src.drop pos).take (remaining - partBytes))) :=
  copyLoopF_det src remaining (remaining - partBytes + 1) pos partBytes acc
    (by omega) h

/-- Under any read oracle whose reads are positive and never exceed the
requested count, the copy loop succeeds and advances the file offset by
exactly the outstanding byte count. -/
theorem copyLoopF_oracle (readFn : Nat → Nat → Nat) (src : List Nat)
    (remaining : Nat)
    (hread : ∀ p t, 0 < t → 0 < readFn p t ∧ readFn p t ≤ t) :
    ∀ fuel pos partBytes acc, remaining - partBytes < fuel →
      ∃ content, copyLoopF readFn src remaining fuel pos partBytes acc =
        some (.ok (pos + (remaining - partBytes), content)) := by
  intro fuel
  induction fuel with
  | zero => intro pos partBytes acc h1; omega
  | succ fuel ih =>
    intro pos partBytes acc h1
    rw [copyLoopF_succ]
    by_cases hlt : partBytes < remaining
    · rw [if_pos hlt]
      have htr : 0 < min READ_BUFFER (remaining - partBytes) := by
        have : 0 < READ_BUFFER := by decide
        omega
      obtain ⟨hpos, hle⟩ := hread pos (min READ_BUFFER (remaining - partBytes)) htr
      cases hr : readFn pos (min READ_BUFFER (remaining - partBytes)) with
      | zero => omega
      | succ r =>
        rw [hr] at hle
        obtain ⟨content, hc⟩ := ih (pos + (r + 1)) (partBytes + (r + 1))
          (acc ++ (src.drop pos).take (r + 1)) (by omega)
        refine ⟨content, ?_⟩
        show copyLoopF readFn src remaining fuel (pos + (r + 1))
            (partBytes + (r + 1)) (acc ++ (src.drop pos).take (r + 1)) =
          some (.ok (pos + (remaining - partBytes), content))
        rw [hc]
        have hpos2 : pos + (r + 1) + (remaining - (partBytes + (r + 1))) =
            pos + (remaining - partBytes) := by omega
        rw [hpos2]
    · rw [if_neg hlt]
      have hz : remaining - partBytes = 0 := by omega
      exact ⟨acc, by simp [hz]⟩

/-! ## Decimal digits and part-name injectivity -/

theorem decDigits_eq (n : Nat) :
    decDigits n = if n < 10 then [Nat.digitChar n]
      else decDigits (n / 10) ++ [Nat.digitChar (n % 10)] := by
  rw [decDigits.eq_def]
  split <;> rfl

theorem digitChar_toNat (d : Nat) (h : d < 10) :
    (Nat.digitChar d).toNat = 48 + d := by
  interval_cases d <;> rfl

theorem digitChar_ne_zero_char (d : Nat) (h1 : 1 ≤ d) (h9 : d < 10) :
    Nat.digitChar d ≠ '0' := by
  interval_cases d <;> decide

theorem decDigits_ne_nil (n : Nat) : decDigits n ≠ [] := by
  rw [decDigits_eq]
  by_cases h : n < 10 <;> simp [h]

theorem foldl_decDigits (n : Nat) :
    ∀ a : Nat, (decDigits n).foldl (fun x c => x * 10 + (c.toNat - 48)) a =
      a * 10 ^ (decDigits n).length + n := by
  induction n using Nat.strong_induction_on with
  | _ n ih =>
    intro a
    rw [decDigits_eq]
    by_cases h : n < 10
    · rw [if_pos h]
      simp only [List.foldl, List.length_cons, List.length_nil]
      rw [digitChar_toNat n h]
      have : 48 + n - 48 = n := by omega
      rw [this, pow_one]
    · rw [if_neg h]
      rw [List.foldl_append]
      rw [ih (n / 10) (Nat.div_lt_self (by omega) (by omega)) a]
      simp only [List.foldl, List.length_append, List.length_cons, List.length_nil]
      rw [digitChar_toNat (n % 10) (Nat.mod_lt _ (by omega))]
      have h48 : 48 + n % 10 - 48 = n % 10 := by omega
      rw [h48]
      have key : n / 10 * 10 + n % 10 = n := by omega
      calc (a * 10 ^ (decDigits (n / 10)).length + n / 10) * 10 + n % 10
          = a * (10 ^ (decDigits (n / 10)).length * 10) + (n / 10 * 10 + n % 10) := by
            ring
        _ = a * (10 ^ (decDigits (n / 10)).length * 10) + n := by rw [key]
        _ = a * 10 ^ ((decDigits (n / 10)).length + 1) + n := by rw [pow_succ]

theorem digitsVal_decDigits (n : Nat) : digitsVal (decDigits n) = n := by
  unfold digitsVal
  rw [foldl_decDigits n 0]
  simp

theorem decDigits_inj {m n : Nat} (h : decDigits m = decDigits n) : m = n := by
  have := congrArg digitsVal h
  rwa [digitsVal_decDigits, digitsVal_decDigits] at this

theorem decDigits_head_ne_zero (n : Nat) (hn : 1 ≤ n) :
    ∀ l : List Char, decDigits n ≠ '0' :: l := by
  induction n using Nat.strong_induction_on with
  | _ n ih =>
    intro l hc
    rw [decDigits_eq] at hc
    by_cases h : n < 10
    · rw [if_pos h] at hc
      have h1 : Nat.digitChar n = '0' := (List.cons.injEq _ _ _ _ ▸ hc).1
      exact digitChar_ne_zero_char n hn h h1
    · rw [if_neg h] at hc
      cases hdd : decDigits (n / 10) with
      | nil => exact decDigits_ne_nil _ hdd
      | cons x xs =>
        rw [hdd] at hc
        simp only [List.cons_append, List.cons.injEq] at hc
        have hx : x = '0' := hc.1
        have : decDigits (n / 10) = '0' :: xs := by rw [hdd, hx]
        exact ih (n / 10) (Nat.div_lt_self (by omega) (by omega))
          (by
            have h10 : 10 ≤ n := by omega
            omega)
          xs this

theorem pad2_inj {m n : Nat} (h : pad2 m = pad2 n) : m = n := by
  unfold pad2 at h
  by_cases hm : m < 10 <;> by_cases hn : n < 10
  · rw [if_pos hm, if_pos hn] at h
    have hd : Nat.digitChar m = Nat.digitChar n := by
      simpa using h
    have := congrArg Char.toNat hd
    rw [digitChar_toNat m hm, digitChar_toNat n hn] at this
    omega
  · rw [if_pos hm, if_neg hn] at h
    exact absurd h.symm (decDigits_head_ne_zero n (by omega) _)
  · rw [if_neg hm, if_pos hn] at h
    exact absurd h (decDigits_head_ne_zero m (by omega) _)
  · rw [if_neg hm, if_neg hn] at h
    exact decDigits_inj h

theorem build_part_name_inj (base : Path) {i j : Nat}
    (h : build_part_name base i = build_part_name base j) : i = j := by
  unfold build_part_name at h
  by_cases he : (splitext base).2 = []
  · rw [if_neg (by simp [he]), if_neg (by simp [he])] at h
    have h2 := List.append_cancel_left h
    have h3 : pad2 i = pad2 j := by
      simpa using h2
    exact pad2_inj h3
  · rw [if_pos (by simp [he]), if_pos (by simp [he])] at h
    have h2 := List.append_cancel_right h
    have h3 := List.append_cancel_left h2
    have h4 : pad2 i = pad2 j := by
      simpa using h3
    exact pad2_inj h4

/-! ## The ceiling part count -/

/-- Bounds for `total_parts = (file_size + chunk_size - 1) // chunk_size`
when an actual split happens (`chunk_size < file_size`). -/
theorem total_parts_bounds (S C : Nat) (hC : 0 < C) (hS : C < S) :
    C * ((S + C - 1) / C - 1) < S ∧ S ≤ C * ((S + C - 1) / C) ∧
      2 ≤ (S + C - 1) / C := by
  have hN : (S + C - 1) / C = (S - 1) / C + 1 := by
    have hrw : S + C - 1 = (S - 1) + C := by omega
    rw [hrw, Nat.add_div_right _ hC]
  have hlow : C * ((S - 1) / C) ≤ S - 1 := by
    rw [Nat.mul_comm]
    exact Nat.div_mul_le_self _ _
  have hup : S - 1 < ((S - 1) / C + 1) * C :=
    (Nat.div_lt_iff_lt_mul hC).1 (by omega)
  have hone : 1 ≤ (S - 1) / C := by
    rw [Nat.le_div_iff_mul_le hC]
    omega
  refine ⟨?_, ?_, ?_⟩
  · rw [hN]
    simp only [Nat.add_sub_cancel]
    omega
  · rw [hN, Nat.mul_comm]
    omega
  · omega

/-! ## Write loop lemmas -/

theorem writeLoop_nil (readFn : Nat → Nat → Nat) (src : List Nat)
    (C S : Nat) (base : Path) (ow : Bool) (pos : Nat) (fs : FS)
    (parts : List Path) :
    writeLoop readFn src C S base ow [] pos fs parts = some (.ok (parts, fs)) :=
  rfl

theorem writeLoop_cons (readFn : Nat → Nat → Nat) (src : List Nat)
    (C S : Nat) (base : Path) (ow : Bool) (index : Nat) (rest : List Nat)
    (pos : Nat) (fs : FS) (parts : List Path) :
    writeLoop readFn src C S base ow (index :: rest) pos fs parts =
      if (fs.pathExists (build_part_name base index) && !ow) = true then
        some (.error (.refusingToOverwrite (build_part_name base index), fs))
      else
        match copyLoop readFn src (min C (S - pos)) pos 0 [] with
        | none => none
        | some (.error e) =>
          some (.error (.unexpectedEndOfFile,
            (fs.writeFile (build_part_name base index) []).writeFile
              (build_part_name base index) e.2))
        | some (.ok (pos2, content)) =>
          writeLoop readFn src C S base ow rest pos2
            ((fs.writeFile (build_part_name base index) []).writeFile
              (build_part_name base index) content)
            (parts ++ [build_part_name base index]) :=
  rfl

/-- On success, the write loop returns the accumulated parts followed by
one part name per processed index, in order — independently of the read
behaviour and of the filesystem. -/
theorem writeLoop_ok_parts (readFn : Nat → Nat → Nat) (src : List Nat)
    (C S : Nat) (base : Path) (ow : Bool) :
    ∀ (idxs : List Nat) (pos : Nat) (fs : FS) (acc parts : List Path) (fs' : FS),
      writeLoop readFn src C S base ow idxs pos fs acc = some (.ok (parts, fs')) →
      parts = acc ++ idxs.map (build_part_name base) := by
  intro idxs
  induction idxs with
  | nil =>
    intro pos fs acc parts fs' h
    rw [writeLoop_nil] at h
    simp only [Option.some.injEq, Except.ok.injEq, Prod.mk.injEq] at h
    simp [h.1]
  | cons index rest ih =>
    intro pos fs acc parts fs' h
    rw [writeLoop_cons] at h
    by_cases hc : (fs.pathExists (build_part_name base index) && !ow) = true
    · rw [if_pos hc] at h
      simp at h
    · rw [if_neg hc] at h
      cases hcopy : copyLoop readFn src (min C (S - pos)) pos 0 [] with
      | none =>
        rw [hcopy] at h
        simp at h
      | some r =>
        rw [hcopy] at h
        cases r with
        | error e => simp at h
        | ok v =>
          obtain ⟨pos2, content⟩ := v
          have hrec := ih pos2
            ((fs.writeFile (build_part_name base index) []).writeFile
              (build_part_name base index) content)
            (acc ++ [build_part_name base index]) parts fs' h
          simp [hrec]

/-- The content slice written for a part starting at offset `pos` is the
full `chunk_size` prefix of the rest of the source (truncated at the
source's end). -/
theorem take_min_chunk (src : List Nat) (C pos : Nat) :
    (src.drop pos).take (min C (src.length - pos)) = (src.drop pos).take C := by
  by_cases h : C ≤ src.length - pos
  · rw [Nat.min_eq_left h]
  · have hlen : (src.drop pos).length = src.length - pos := List.length_drop _ _
    rw [Nat.min_eq_right (by omega)]
    rw [show src.length - pos = (src.drop pos).length from hlen.symm]
    rw [List.take_length, List.take_of_length_le (by omega)]

/-- Master lemma for a successful (non-dry) write loop run over the index
range `[k, k+m)` with `k + m = total_parts`: the returned parts are the
part names in order, paths other than the processed part names keep their
content, and each processed part name holds exactly its source slice. -/
theorem writeLoop_ok_master (src : List Nat) (C : Nat) (base : Path) (ow : Bool)
    (hC : 0 < C) (hS : C < src.length) :
    ∀ m k (fs : FS) (acc parts : List Path) (fs' : FS),
      k + m = (src.length + C - 1) / C →
      writeLoop (fileRead src) src C src.length base ow
        (List.range' k m) (min (C * k) src.length) fs acc = some (.ok (parts, fs')) →
      parts = acc ++ (List.range' k m).map (build_part_name base) ∧
      (∀ p, (∀ i, k ≤ i → i < (src.length + C - 1) / C →
          p ≠ build_part_name base i) →
        fs'.lookupFile p = fs.lookupFile p) ∧
      (∀ i, k ≤ i → i < (src.length + C - 1) / C →
        fs'.lookupFile (build_part_name base i) =
          some ((src.drop (C * i)).take C)) := by
  intro m
  induction m with
  | zero =>
    intro k fs acc parts fs' hk h
    rw [show List.range' k 0 = [] from rfl, writeLoop_nil] at h
    simp only [Option.some.injEq, Except.ok.injEq, Prod.mk.injEq] at h
    refine ⟨by simp [h.1.symm], ?_, ?_⟩
    · intro p _
      rw [← h.2]
    · intro i hki hiN
      omega
  | succ m ih =>
    intro k fs acc parts fs' hk h
    obtain ⟨hb1, hb2, hb3⟩ := total_parts_bounds src.length C hC hS
    have hkN : k + 1 ≤ (src.length + C - 1) / C := by omega
    have hCk : C * k < src.length := by
      have h1 : C * k ≤ C * ((src.length + C - 1) / C - 1) :=
        Nat.mul_le_mul_left _ (by omega)
      omega
    have hmin : min (C * k) src.length = C * k := by omega
    rw [List.range'_succ] at h ⊢
    rw [writeLoop_cons, hmin] at h
    by_cases hc : (fs.pathExists (build_part_name base k) && !ow) = true
    · rw [if_pos hc] at h
      simp at h
    · rw [if_neg hc] at h
      have hcopy := copyLoop_det src (min C (src.length - C * k)) (C * k) 0 []
        (by omega)
      rw [Nat.sub_zero, List.nil_append, take_min_chunk] at hcopy
      rw [hcopy] at h
      have hpos2 : C * k + min C (src.length - C * k) =
          min (C * (k + 1)) src.length := by
        rw [Nat.mul_succ]
        omega
      rw [hpos2] at h
      have h2 : writeLoop (fileRead src) src C src.length base ow
          (List.range' (k + 1) m) (min (C * (k + 1)) src.length)
          ((fs.writeFile (build_part_name base k) []).writeFile
            (build_part_name base k) ((src.drop (C * k)).take C))
          (acc ++ [build_part_name base k]) = some (.ok (parts, fs')) := h
      obtain ⟨hparts, hother, hparti⟩ := ih (k + 1)
        ((fs.writeFile (build_part_name base k) []).writeFile
          (build_part_name base k) ((src.drop (C * k)).take C))
        (acc ++ [build_part_name base k]) parts fs' (by omega) h2
      refine ⟨?_, ?_, ?_⟩
      · rw [hparts]
        simp
      · intro p hp
        rw [hother p (fun i h1 h2 => hp i (by omega) h2)]
        have hpk : p ≠ build_part_name base k := hp k (by omega) (by omega)
        rw [FS.lookupFile_writeFile_ne _ _ _ _ hpk,
          FS.lookupFile_writeFile_ne _ _ _ _ hpk]
      · intro i hki hiN
        by_cases hik : i = k
        · subst hik
          have hne : ∀ j, i + 1 ≤ j → j < (src.length + C - 1) / C →
              build_part_name base i ≠ build_part_name base j := by
            intro j hj1 _ hcn
            have := build_part_name_inj base hcn
            omega
          rw [hother (build_part_name base i) hne]
          exact FS.lookupFile_writeFile_self _ _ _
        · exact hparti i (by omega) hiN

/-- With `overwrite = false`, if some still-to-be-processed part name
already exists on the filesystem, the write loop raises
`refusingToOverwrite`, and every file that existed before keeps its
content in the filesystem at raise time. -/
theorem writeLoop_conflict (src : List Nat) (C : Nat) (base : Path)
    (hC : 0 < C) (hS : C < src.length) :
    ∀ m k (fs : FS) (acc : List Path),
      k + m = (src.length + C - 1) / C →
      (∃ i, k ≤ i ∧ i < (src.length + C - 1) / C ∧
        fs.pathExists (build_part_name base i) = true) →
      ∃ p fsE,
        writeLoop (fileRead src) src C src.length base false
          (List.range' k m) (min (C * k) src.length) fs acc =
          some (.error (.refusingToOverwrite p, fsE)) ∧
        (∀ q c, fs.lookupFile q = some c → fsE.lookupFile q = some c) := by
  intro m
  induction m with
  | zero =>
    intro k fs acc hk hconf
    obtain ⟨i, h1, h2, _⟩ := hconf
    omega
  | succ m ih =>
    intro k fs acc hk hconf
    obtain ⟨hb1, hb2, hb3⟩ := total_parts_bounds src.length C hC hS
    have hkN : k + 1 ≤ (src.length + C - 1) / C := by omega
    have hCk : C * k < src.length := by
      have h1 : C * k ≤ C * ((src.length + C - 1) / C - 1) :=
        Nat.mul_le_mul_left _ (by omega)
      omega
    have hmin : min (C * k) src.length = C * k := by omega
    rw [List.range'_succ, writeLoop_cons, hmin]
    by_cases hck : fs.pathExists (build_part_name base k) = true
    · refine ⟨build_part_name base k, fs, ?_, fun q c hq => hq⟩
      rw [if_pos (by simp [hck])]
    · have hckf : fs.pathExists (build_part_name base k) = false :=
        Bool.eq_false_iff.2 hck
      have hknone : fs.lookupFile (build_part_name base k) = none :=
        FS.lookupFile_eq_none_of_not_pathExists _ _ hckf
      obtain ⟨i, hi1, hi2, hi3⟩ := hconf
      have hik : i ≠ k := by
        intro hik
        rw [hik] at hi3
        rw [hi3] at hckf
        cases hckf
      have hcopy := copyLoop_det src (min C (src.length - C * k)) (C * k) 0 []
        (by omega)
      rw [Nat.sub_zero, List.nil_append, take_min_chunk] at hcopy
      have hpos2 : C * k + min C (src.length - C * k) =
          min (C * (k + 1)) src.length := by
        rw [Nat.mul_succ]
        omega
      obtain ⟨p, fsE, heq, hpres⟩ := ih (k + 1)
        ((fs.writeFile (build_part_name base k) []).writeFile
          (build_part_name base k) ((src.drop (C * k)).take C))
        (acc ++ [build_part_name base k]) (by omega)
        ⟨i, by omega, hi2, by
          apply FS.pathExists_writeFile_mono
          apply FS.pathExists_writeFile_mono
          exact hi3⟩
      refine ⟨p, fsE, ?_, ?_⟩
      · rw [if_neg (by simp [hckf]), hcopy, hpos2]
        exact heq
      · intro q c hq
        have hqk : q ≠ build_part_name base k := by
          intro hqk
          rw [hqk, hknone] at hq
          cases hq
        apply hpres
        rw [FS.lookupFile_writeFile_ne _ _ _ _ hqk,
          FS.lookupFile_writeFile_ne _ _ _ _ hqk]
        exact hq

/-! ## `split_file` unfolding -/

theorem split_file_eq (fs : FS) (fp : Path) (od : Option Path) (C : Nat)
    (ow dr : Bool) :
    split_file fs fp od C ow dr =
      if ((fs.lookupFile fp).getD []).length ≤ C then some (.ok ([], fs))
      else
        if dr then
          some (.ok ((List.range
              ((((fs.lookupFile fp).getD []).length + C - 1) / C)).map
            (build_part_name (joinPath (od.getD (dirname fp)) (basename fp))),
            fs.makedirs (od.getD (dirname fp))))
        else
          writeLoop (fileRead ((fs.lookupFile fp).getD []))
            ((fs.lookupFile fp).getD []) C ((fs.lookupFile fp).getD []).length
            (joinPath (od.getD (dirname fp)) (basename fp)) ow
            (List.range ((((fs.lookupFile fp).getD []).length + C - 1) / C)) 0
            (fs.makedirs (od.getD (dirname fp))) [] :=
  rfl

/-- Concatenating the per-part slices of the source reproduces a prefix of
the source. -/
theorem flatten_slices (src : List Nat) (C : Nat) :
    ∀ n, ((List.range n).map (fun i => (src.drop (C * i)).take C)).flatten =
      src.take (C * n) := by
  intro n
  induction n with
  | zero => simp
  | succ n ih =>
    rw [List.range_succ, List.map_append, List.flatten_append, ih]
    simp only [List.map_cons, List.map_nil, List.flatten_cons, List.flatten_nil,
      List.append_nil]
    rw [Nat.mul_succ, List.take_add]

/-! ## Claim theorems -/

/-- C1: for every source file of size `S` and chunk size `C > 0` with
`S > C`, a completed non-dry-run `split_file` leaves part files on the
filesystem whose contents, concatenated in index order, are exactly the
original source bytes. -/
theorem split_concat_eq_source (fs : FS) (fp : Path) (od : Option Path)
    (C : Nat) (ow : Bool) (src : List Nat) (parts : List Path) (fs' : FS)
    (hsrc : fs.lookupFile fp = some src) (hC : 0 < C) (hS : C < src.length)
    (h : split_file fs fp od C ow false = some (.ok (parts, fs'))) :
    (parts.map fun p => (fs'.lookupFile p).getD []).flatten = src := by
  rw [split_file_eq, hsrc] at h
  simp only [Option.getD_some] at h
  rw [if_neg (by omega), if_neg (by simp)] at h
  rw [List.range_eq_range'] at h
  have h2 : writeLoop (fileRead src) src C src.length
      (joinPath (od.getD (dirname fp)) (basename fp)) ow
      (List.range' 0 ((src.length + C - 1) / C)) (min (C * 0) src.length)
      (fs.makedirs (od.getD (dirname fp))) [] = some (.ok (parts, fs')) := by
    have hz : min (C * 0) src.length = 0 := by simp
    rw [hz]
    exact h
  obtain ⟨hparts, _, hparti⟩ := writeLoop_ok_master src C
    (joinPath (od.getD (dirname fp)) (basename fp)) ow hC hS
    ((src.length + C - 1) / C) 0 (fs.makedirs (od.getD (dirname fp))) []
    parts fs' (by omega) h2
  obtain ⟨hb1, hb2, hb3⟩ := total_parts_bounds src.length C hC hS
  rw [hparts]
  simp only [List.nil_append, ← List.range_eq_range', List.map_map]
  have hmap : (List.range ((src.length + C - 1) / C)).map
      ((fun p => (fs'.lookupFile p).getD []) ∘
        build_part_name (joinPath (od.getD (dirname fp)) (basename fp))) =
      (List.range ((src.length + C - 1) / C)).map
        (fun i => (src.drop (C * i)).take C) :=
    List.map_congr_left (fun i hi => by
      simp only [Function.comp]
      rw [hparti i (by omega) (List.mem_range.1 hi)]
      rfl)
  rw [hmap, flatten_slices]
  exact List.take_of_length_le (by omega)

/-- C1 witness: a concrete successful split whose parts concatenate to the
source. -/
theorem split_concat_eq_source_witness :
    (["o/a.00.nsp".data, "o/a.01.nsp".data, "o/a.02.nsp".data].map
        fun p => ((FS.mk [("a.nsp".data, [0, 1, 2, 3, 4, 5, 6, 7, 8, 9]),
          ("o/a.00.nsp".data, [0, 1, 2, 3]), ("o/a.01.nsp".data, [4, 5, 6, 7]),
          ("o/a.02.nsp".data, [8, 9])] ["o".data]).lookupFile p).getD []).flatten =
      [0, 1, 2, 3, 4, 5, 6, 7, 8, 9] :=
  split_concat_eq_source
    ⟨[("a.nsp".data, [0, 1, 2, 3, 4, 5, 6, 7, 8, 9])], ["o".data]⟩
    ("a.nsp".data) (some "o".data) 4 false
    [0, 1, 2, 3, 4, 5, 6, 7, 8, 9]
    ["o/a.00.nsp".data, "o/a.01.nsp".data, "o/a.02.nsp".data]
    (FS.mk [("a.nsp".data, [0, 1, 2, 3, 4, 5, 6, 7, 8, 9]),
      ("o/a.00.nsp".data, [0, 1, 2, 3]), ("o/a.01.nsp".data, [4, 5, 6, 7]),
      ("o/a.02.nsp".data, [8, 9])] ["o".data])
    (by decide) (by decide) (by decide) (by decide)

/-- C2: a completed non-dry-run split of a size-`S` source with chunk size
`0 < C < S` produces exactly `ceil(S / C)` parts; every part except the
last holds exactly `C` bytes, and the last holds `S - C * (N - 1)` bytes,
which is positive and at most `C`. -/
theorem split_part_count_and_sizes (fs : FS) (fp : Path) (od : Option Path)
    (C : Nat) (ow : Bool) (src : List Nat) (parts : List Path) (fs' : FS)
    (hsrc : fs.lookupFile fp = some src) (hC : 0 < C) (hS : C < src.length)
    (h : split_file fs fp od C ow false = some (.ok (parts, fs'))) :
    parts.length = (src.length + C - 1) / C ∧
    (∀ i, i + 1 < (src.length + C - 1) / C →
      ((fs'.lookupFile (build_part_name
          (joinPath (od.getD (dirname fp)) (basename fp)) i)).getD []).length = C) ∧
    ((fs'.lookupFile (build_part_name
        (joinPath (od.getD (dirname fp)) (basename fp))
        ((src.length + C - 1) / C - 1))).getD []).length =
      src.length - C * ((src.length + C - 1) / C - 1) ∧
    0 < src.length - C * ((src.length + C - 1) / C - 1) ∧
    src.length - C * ((src.length + C - 1) / C - 1) ≤ C := by
  rw [split_file_eq, hsrc] at h
  simp only [Option.getD_some] at h
  rw [if_neg (by omega), if_neg (by simp)] at h
  rw [List.range_eq_range'] at h
  have h2 : writeLoop (fileRead src) src C src.length
      (joinPath (od.getD (dirname fp)) (basename fp)) ow
      (List.range' 0 ((src.length + C - 1) / C)) (min (C * 0) src.length)
      (fs.makedirs (od.getD (dirname fp))) [] = some (.ok (parts, fs')) := by
    have hz : min (C * 0) src.length = 0 := by simp
    rw [hz]
    exact h
  obtain ⟨hparts, _, hparti⟩ := writeLoop_ok_master src C
    (joinPath (od.getD (dirname fp)) (basename fp)) ow hC hS
    ((src.length + C - 1) / C) 0 (fs.makedirs (od.getD (dirname fp))) []
    parts fs' (by omega) h2
  obtain ⟨hb1, hb2, hb3⟩ := total_parts_bounds src.length C hC hS
  have hCN : C * ((src.length + C - 1) / C) =
      C * ((src.length + C - 1) / C - 1) + C := by
    have h1 : (src.length + C - 1) / C - 1 + 1 = (src.length + C - 1) / C := by
      omega
    calc C * ((src.length + C - 1) / C)
        = C * ((src.length + C - 1) / C - 1 + 1) := by rw [h1]
      _ = C * ((src.length + C - 1) / C - 1) + C := Nat.mul_succ _ _
  refine ⟨?_, ?_, ?_, by omega, by omega⟩
  · rw [hparts]
    simp
  · intro i hi
    have hCi : C * (i + 1) ≤ C * ((src.length + C - 1) / C - 1) :=
      Nat.mul_le_mul_left _ (by omega)
    rw [Nat.mul_succ] at hCi
    rw [hparti i (by omega) (by omega)]
    simp only [Option.getD_some, List.length_take, List.length_drop]
    omega
  · rw [hparti ((src.length + C - 1) / C - 1) (by omega) (by omega)]
    simp only [Option.getD_some, List.length_take, List.length_drop]
    omega

/-- C2 witness: the concrete run has 3 parts of sizes 4, 4 and 2. -/
theorem split_part_count_and_sizes_witness :
    (["o/a.00.nsp".data, "o/a.01.nsp".data, "o/a.02.nsp".data] : List Path).length =
      (([0, 1, 2, 3, 4, 5, 6, 7, 8, 9] : List Nat).length + 4 - 1) / 4 ∧
    (∀ i, i + 1 < (([0, 1, 2, 3, 4, 5, 6, 7, 8, 9] : List Nat).length + 4 - 1) / 4 →
      (((FS.mk [("a.nsp".data, [0, 1, 2, 3, 4, 5, 6, 7, 8, 9]),
          ("o/a.00.nsp".data, [0, 1, 2, 3]), ("o/a.01.nsp".data, [4, 5, 6, 7]),
          ("o/a.02.nsp".data, [8, 9])] ["o".data]).lookupFile (build_part_name
          (joinPath ((some "o".data).getD (dirname ("a.nsp".data)))
            (basename ("a.nsp".data))) i)).getD []).length = 4) ∧
    (((FS.mk [("a.nsp".data, [0, 1, 2, 3, 4, 5, 6, 7, 8, 9]),
        ("o/a.00.nsp".data, [0, 1, 2, 3]), ("o/a.01.nsp".data, [4, 5, 6, 7]),
        ("o/a.02.nsp".data, [8, 9])] ["o".data]).lookupFile (build_part_name
        (joinPath ((some "o".data).getD (dirname ("a.nsp".data)))
          (basename ("a.nsp".data)))
        ((([0, 1, 2, 3, 4, 5, 6, 7, 8, 9] : List Nat).length + 4 - 1) / 4 - 1))).getD
      []).length =
      ([0, 1, 2, 3, 4, 5, 6, 7, 8, 9] : List Nat).length -
        4 * ((([0, 1, 2, 3, 4, 5, 6, 7, 8, 9] : List Nat).length + 4 - 1) / 4 - 1) ∧
    0 < ([0, 1, 2, 3, 4, 5, 6, 7, 8, 9] : List Nat).length -
        4 * ((([0, 1, 2, 3, 4, 5, 6, 7, 8, 9] : List Nat).length + 4 - 1) / 4 - 1) ∧
    ([0, 1, 2, 3, 4, 5, 6, 7, 8, 9] : List Nat).length -
        4 * ((([0, 1, 2, 3, 4, 5, 6, 7, 8, 9] : List Nat).length + 4 - 1) / 4 - 1) ≤ 4 :=
  split_part_count_and_sizes
    ⟨[("a.nsp".data, [0, 1, 2, 3, 4, 5, 6, 7, 8, 9])], ["o".data]⟩
    ("a.nsp".data) (some "o".data) 4 false
    [0, 1, 2, 3, 4, 5, 6, 7, 8, 9]
    ["o/a.00.nsp".data, "o/a.01.nsp".data, "o/a.02.nsp".data]
    (FS.mk [("a.nsp".data, [0, 1, 2, 3, 4, 5, 6, 7, 8, 9]),
      ("o/a.00.nsp".data, [0, 1, 2, 3]), ("o/a.01.nsp".data, [4, 5, 6, 7]),
      ("o/a.02.nsp".data, [8, 9])] ["o".data])
    (by decide) (by decide) (by decide) (by decide)

/-- C7: when the source fits in one chunk (`S ≤ C`), `split_file` returns
an empty parts list without error and the filesystem — the source file
included — is completely unchanged, in dry-run and real mode alike. -/
theorem small_file_no_split (fs : FS) (fp : Path) (od : Option Path)
    (C : Nat) (ow dr : Bool) (src : List Nat)
    (hsrc : fs.lookupFile fp = some src) (hS : src.length ≤ C) :
    split_file fs fp od C ow dr = some (.ok ([], fs)) := by
  rw [split_file_eq, hsrc]
  simp only [Option.getD_some]
  rw [if_pos hS]

/-- C7 witness: a 3-byte file with chunk size 4 is left alone. -/
theorem small_file_no_split_witness :
    split_file ⟨[("a.nsp".data, [1, 2, 3])], []⟩ ("a.nsp".data) none 4
        false false =
      some (.ok ([], ⟨[("a.nsp".data, [1, 2, 3])], []⟩)) :=
  small_file_no_split ⟨[("a.nsp".data, [1, 2, 3])], []⟩ ("a.nsp".data) none 4
    false false [1, 2, 3] (by decide) (by decide)

/-- C9: whenever a non-dry run returns a parts list, a dry run on the same
inputs returns the identical list (same paths, same order). -/
theorem dry_run_matches_real_parts (fs : FS) (fp : Path) (od : Option Path)
    (C : Nat) (ow : Bool) (parts : List Path) (fs' : FS)
    (h : split_file fs fp od C ow false = some (.ok (parts, fs'))) :
    ∃ fs2, split_file fs fp od C ow true = some (.ok (parts, fs2)) := by
  rw [split_file_eq] at h ⊢
  by_cases hle : ((fs.lookupFile fp).getD []).length ≤ C
  · rw [if_pos hle] at h ⊢
    simp only [Option.some.injEq, Except.ok.injEq, Prod.mk.injEq] at h
    exact ⟨fs, by rw [← h.1]⟩
  · rw [if_neg hle] at h ⊢
    rw [if_neg (by simp)] at h
    rw [if_pos rfl]
    have hp := writeLoop_ok_parts (fileRead ((fs.lookupFile fp).getD []))
      ((fs.lookupFile fp).getD []) C ((fs.lookupFile fp).getD []).length
      (joinPath (od.getD (dirname fp)) (basename fp)) ow
      (List.range ((((fs.lookupFile fp).getD []).length + C - 1) / C)) 0
      (fs.makedirs (od.getD (dirname fp))) [] parts fs' h
    refine ⟨fs.makedirs (od.getD (dirname fp)), ?_⟩
    rw [hp]
    simp

/-- C9 witness: the dry run of the concrete successful split returns the
same three part paths. -/
theorem dry_run_matches_real_parts_witness :
    ∃ fs2, split_file ⟨[("a.nsp".data, [0, 1, 2, 3, 4, 5, 6, 7, 8, 9])],
        ["o".data]⟩ ("a.nsp".data) (some "o".data) 4 false true =
      some (.ok (["o/a.00.nsp".data, "o/a.01.nsp".data, "o/a.02.nsp".data],
        fs2)) :=
  dry_run_matches_real_parts
    ⟨[("a.nsp".data, [0, 1, 2, 3, 4, 5, 6, 7, 8, 9])], ["o".data]⟩
    ("a.nsp".data) (some "o".data) 4 false
    ["o/a.00.nsp".data, "o/a.01.nsp".data, "o/a.02.nsp".data]
    (FS.mk [("a.nsp".data, [0, 1, 2, 3, 4, 5, 6, 7, 8, 9]),
      ("o/a.00.nsp".data, [0, 1, 2, 3]), ("o/a.01.nsp".data, [4, 5, 6, 7]),
      ("o/a.02.nsp".data, [8, 9])] ["o".data])
    (by decide)

/-- C5 counterexample: a dry run with a missing output directory creates
that directory (`os.makedirs` runs before the dry-run branch), so the
filesystem is not left unchanged as the claim states. -/
theorem dry_run_creates_outdir_cex :
    split_file ⟨[("a.nsp".data, [0, 1, 2, 3, 4, 5, 6, 7, 8, 9])], []⟩
        ("a.nsp".data) (some "o".data) 4 false true =
      some (.ok (["o/a.00.nsp".data, "o/a.01.nsp".data, "o/a.02.nsp".data],
        ⟨[("a.nsp".data, [0, 1, 2, 3, 4, 5, 6, 7, 8, 9])], ["o".data]⟩)) ∧
    (FS.mk [("a.nsp".data, [0, 1, 2, 3, 4, 5, 6, 7, 8, 9])] []).dirs = [] ∧
    (FS.mk [("a.nsp".data, [0, 1, 2, 3, 4, 5, 6, 7, 8, 9])] ["o".data]).dirs ≠
      [] := by
  exact ⟨by decide, rfl, by decide⟩

/-- C5 (amended): a dry run returns the full list of intended part paths
and creates or modifies no files — the source and every other file are
untouched — but it does create the output directory when missing, because
`os.makedirs` runs before the dry-run branch. -/
theorem dry_run_plan_amended (fs : FS) (fp : Path) (od : Option Path)
    (C : Nat) (ow : Bool) (src : List Nat)
    (hsrc : fs.lookupFile fp = some src) (hC : C < src.length) :
    split_file fs fp od C ow true =
      some (.ok ((List.range ((src.length + C - 1) / C)).map
          (build_part_name (joinPath (od.getD (dirname fp)) (basename fp))),
        fs.makedirs (od.getD (dirname fp)))) ∧
    (fs.makedirs (od.getD (dirname fp))).files = fs.files := by
  refine ⟨?_, FS.files_makedirs _ _⟩
  rw [split_file_eq, hsrc]
  simp only [Option.getD_some]
  rw [if_neg (by omega)]
  simp

/-- C5 (amended) witness at a concrete dry run. -/
theorem dry_run_plan_amended_witness :
    split_file ⟨[("a.nsp".data, [0, 1, 2, 3, 4, 5, 6, 7, 8, 9])], []⟩
        ("a.nsp".data) (some "o".data) 4 false true =
      some (.ok ((List.range
          ((([0, 1, 2, 3, 4, 5, 6, 7, 8, 9] : List Nat).length + 4 - 1) / 4)).map
          (build_part_name (joinPath ((some "o".data).getD
            (dirname ("a.nsp".data))) (basename ("a.nsp".data)))),
        (FS.mk [("a.nsp".data, [0, 1, 2, 3, 4, 5, 6, 7, 8, 9])] []).makedirs
          ((some "o".data).getD (dirname ("a.nsp".data))))) ∧
    ((FS.mk [("a.nsp".data, [0, 1, 2, 3, 4, 5, 6, 7, 8, 9])] []).makedirs
        ((some "o".data).getD (dirname ("a.nsp".data)))).files =
      (FS.mk [("a.nsp".data, [0, 1, 2, 3, 4, 5, 6, 7, 8, 9])] []).files :=
  dry_run_plan_amended ⟨[("a.nsp".data, [0, 1, 2, 3, 4, 5, 6, 7, 8, 9])], []⟩
    ("a.nsp".data) (some "o".data) 4 false [0, 1, 2, 3, 4, 5, 6, 7, 8, 9]
    (by decide) (by decide)

/-- C4 counterexample: with `overwrite = false` and only the index-1 part
already on disk, `split_file` does raise `refusingToOverwrite`, but by
that time the non-conflicting index-0 part — absent beforehand — has been
created and fully written, contradicting the claim that no part file is
created. -/
theorem split_conflict_earlier_part_cex :
    split_file ⟨[("a.nsp".data, [0, 1, 2, 3, 4, 5, 6, 7, 8, 9]),
        ("o/a.01.nsp".data, [])], ["o".data]⟩
      ("a.nsp".data) (some "o".data) 4 false false =
      some (.error (.refusingToOverwrite ("o/a.01.nsp".data),
        ⟨[("a.nsp".data, [0, 1, 2, 3, 4, 5, 6, 7, 8, 9]),
          ("o/a.01.nsp".data, []), ("o/a.00.nsp".data, [0, 1, 2, 3])],
          ["o".data]⟩)) ∧
    (FS.mk [("a.nsp".data, [0, 1, 2, 3, 4, 5, 6, 7, 8, 9]),
        ("o/a.01.nsp".data, [])] ["o".data]).lookupFile
      ("o/a.00.nsp".data) = none := by
  exact ⟨by decide, by decide⟩

/-- C4 (amended): with `overwrite = false`, if any intended part path
already exists, the run raises `refusingToOverwrite` before writing to any
pre-existing file: every file present beforehand (existing parts and the
source included) keeps its exact content.  Intended parts with indices
before the first conflicting one, however, are created and written before
the error is raised. -/
theorem split_conflict_halts_amended (fs : FS) (fp : Path) (od : Option Path)
    (C : Nat) (src : List Nat)
    (hsrc : fs.lookupFile fp = some src) (hC : 0 < C) (hS : C < src.length)
    (hconf : ∃ i, i < (src.length + C - 1) / C ∧
      fs.pathExists (build_part_name
        (joinPath (od.getD (dirname fp)) (basename fp)) i) = true) :
    ∃ p fsE, split_file fs fp od C false false =
        some (.error (.refusingToOverwrite p, fsE)) ∧
      (∀ q c, fs.lookupFile q = some c → fsE.lookupFile q = some c) := by
  rw [split_file_eq, hsrc]
  simp only [Option.getD_some]
  rw [if_neg (by omega), if_neg (by simp)]
  rw [List.range_eq_range']
  obtain ⟨i, hiN, hex⟩ := hconf
  obtain ⟨p, fsE, heq, hpres⟩ := writeLoop_conflict src C
    (joinPath (od.getD (dirname fp)) (basename fp)) hC hS
    ((src.length + C - 1) / C) 0 (fs.makedirs (od.getD (dirname fp))) []
    (by omega)
    ⟨i, by omega, hiN, FS.pathExists_makedirs_mono _ _ _ hex⟩
  refine ⟨p, fsE, ?_, ?_⟩
  · have hz : min (C * 0) src.length = 0 := by simp
    rw [hz] at heq
    exact heq
  · intro q c hq
    exact hpres q c (by rw [FS.lookupFile_makedirs]; exact hq)

/-- C4 (amended) witness at a concrete conflicting run. -/
theorem split_conflict_halts_amended_witness :
    ∃ p fsE, split_file ⟨[("a.nsp".data, [0, 1, 2, 3, 4, 5, 6, 7, 8, 9]),
        ("o/a.01.nsp".data, [])], ["o".data]⟩
      ("a.nsp".data) (some "o".data) 4 false false =
        some (.error (.refusingToOverwrite p, fsE)) ∧
      (∀ q c, (FS.mk [("a.nsp".data, [0, 1, 2, 3, 4, 5, 6, 7, 8, 9]),
          ("o/a.01.nsp".data, [])] ["o".data]).lookupFile q = some c →
        fsE.lookupFile q = some c) :=
  split_conflict_halts_amended
    ⟨[("a.nsp".data, [0, 1, 2, 3, 4, 5, 6, 7, 8, 9]),
      ("o/a.01.nsp".data, [])], ["o".data]⟩
    ("a.nsp".data) (some "o".data) 4 [0, 1, 2, 3, 4, 5, 6, 7, 8, 9]
    (by decide) (by decide) (by decide) ⟨1, by decide, by decide⟩

/-- C10: for every read oracle whose reads are positive and never larger
than requested — short reads included — the inner copy loop terminates
successfully having advanced the source offset (and hence written) exactly
`remaining - partBytes` further bytes, and each iteration's updated
`part_bytes` stays at most `remaining`. -/
theorem copy_loop_exact_bytes (readFn : Nat → Nat → Nat) (src : List Nat)
    (remaining pos partBytes : Nat) (acc : List Nat)
    (hread : ∀ p t, 0 < t → 0 < readFn p t ∧ readFn p t ≤ t)
    (hpb : partBytes ≤ remaining) :
    (∃ content, copyLoop readFn src remaining pos partBytes acc =
      some (.ok (pos + remaining - partBytes, content))) ∧
    (∀ p, partBytes < remaining →
      partBytes + readFn p (min READ_BUFFER (remaining - partBytes)) ≤
        remaining) := by
  constructor
  · obtain ⟨content, hc⟩ := copyLoopF_oracle readFn src remaining hread
      (remaining - partBytes + 1) pos partBytes acc (by omega)
    refine ⟨content, ?_⟩
    rw [show pos + remaining - partBytes = pos + (remaining - partBytes)
      from by omega]
    exact hc
  · intro p hlt
    have htr : 0 < min READ_BUFFER (remaining - partBytes) := by
      have : 0 < READ_BUFFER := by decide
      omega
    have h2 := (hread p _ htr).2
    omega

/-- C10 witness: a one-byte-at-a-time oracle on a five-byte transfer. -/
theorem copy_loop_exact_bytes_witness :
    (∃ content, copyLoop (fun (_ t : Nat) => min 1 t) [1, 2, 3, 4, 5] 5 0 0 [] =
      some (.ok (0 + 5 - 0, content))) ∧
    (∀ p : Nat, 0 < 5 →
      0 + (fun (_ t : Nat) => min 1 t) p (min READ_BUFFER (5 - 0)) ≤ 5) :=
  copy_loop_exact_bytes (fun (_ t : Nat) => min 1 t) [1, 2, 3, 4, 5] 5 0 0 []
    (fun (p t : Nat) (ht : 0 < t) =>
      ⟨by show 0 < min 1 t; omega, by show min 1 t ≤ t; omega⟩)
    (by omega)

/-- C3 counterexample: the code maps a bare `G` suffix to `1024 ** 3`
(the `"g"` entry of the suffix table), so `parse_size("2G")` returns
2,147,483,648 — not the 2,000,000,000 the claim states for decimal
interpretation. -/
theorem parse_size_bare_g_binary_cex :
    parse_size ("2G".data) = some 2147483648 ∧
    parse_size ("2G".data) ≠ some 2000000000 :=
  ⟨by decide, by decide⟩

/-- C3 (amended): `parse_size` maps "2G" to 2,147,483,648 — bare K/M/G/T
suffixes denote binary powers of 1024, while KB/MB/GB/TB denote decimal
powers of 1000 ("2GB" gives 2,000,000,000) — maps "512MiB" to
536,870,912 and "1024" to 1024, and rejects invalid strings such as
"abc" (an exception during argument parsing, before any file is
touched). -/
theorem parse_size_values_amended :
    parse_size ("2G".data) = some 2147483648 ∧
    parse_size ("2GB".data) = some 2000000000 ∧
    parse_size ("512MiB".data) = some 536870912 ∧
    parse_size ("1024".data) = some 1024 ∧
    parse_size ("abc".data) = none :=
  ⟨by decide, by decide, by decide, by decide, by decide⟩

/-- C6: the digit-only path of `parse_size` performs no positivity check,
so the chunk-size string "0" is accepted and yields 0, although the
suffix path rejects non-positive values (e.g. "0k") with "size must be
positive".  The accepted 0 then reaches `main`'s part-count computation
`(size + chunk_size - 1) // chunk_size`, which raises
`ZeroDivisionError` — the claim that a zero chunk size is rejected during
configuration parsing is right about the intent and the code is wrong. -/
theorem parse_size_zero_accepted :
    parse_size ("0".data) = some 0 ∧ parse_size ("0k".data) = none :=
  ⟨by decide, by decide⟩

/-! ## `splitext` characterisation -/

theorem lastIdx_cons (c x : Char) (xs : List Char) :
    lastIdx c (x :: xs) = match lastIdx c xs with
      | some i => some (i + 1)
      | none => if x = c then some 0 else none := rfl

theorem lastIdx_eq_none_iff (c : Char) (l : List Char) :
    lastIdx c l = none ↔ c ∉ l := by
  induction l with
  | nil => simp [lastIdx]
  | cons x xs ih =>
    rw [lastIdx_cons]
    cases h : lastIdx c xs with
    | some i =>
      have hmem : c ∈ xs := by
        by_contra hc
        rw [ih.2 hc] at h
        exact Option.noConfusion h
      simp [hmem]
    | none =>
      have hnm : c ∉ xs := ih.1 h
      by_cases hx : x = c
      · simp [hx]
      · rw [if_neg hx]
        simp only [List.mem_cons]
        constructor
        · intro _
          rintro (hc | hc)
          · exact hx hc.symm
          · exact hnm hc
        · intro _
          trivial

theorem lastIdx_append_of_mem (c : Char) (l r : List Char) (j : Nat)
    (h : lastIdx c r = some j) :
    lastIdx c (l ++ r) = some (l.length + j) := by
  induction l with
  | nil => simpa using h
  | cons x xs ih =>
    rw [List.cons_append, lastIdx_cons, ih]
    simp [Nat.add_assoc, Nat.add_comm j 1]

theorem lastIdx_append_of_not_mem (c : Char) (l r : List Char)
    (h : c ∉ r) : lastIdx c (l ++ r) = lastIdx c l := by
  induction l with
  | nil => simpa using (lastIdx_eq_none_iff c r).2 h
  | cons x xs ih =>
    rw [List.cons_append, lastIdx_cons, ih, lastIdx_cons]

theorem lastIdx_lt_length (c : Char) (l : List Char) (i : Nat)
    (h : lastIdx c l = some i) : i < l.length := by
  induction l generalizing i with
  | nil => exact Option.noConfusion h
  | cons x xs ih =>
    rw [lastIdx_cons] at h
    cases h2 : lastIdx c xs with
    | some j =>
      rw [h2] at h
      simp only [Option.some.injEq] at h
      have := ih j h2
      simp only [List.length_cons]
      omega
    | none =>
      rw [h2] at h
      by_cases hx : x = c
      · rw [if_pos hx] at h
        simp only [Option.some.injEq] at h
        simp [← h]
      · rw [if_neg hx] at h
        exact Option.noConfusion h

theorem lastIdx_mem_drop (c : Char) (l : List Char) (i : Nat)
    (h : lastIdx c l = some i) : c ∈ l.drop i := by
  induction l generalizing i with
  | nil => exact Option.noConfusion h
  | cons x xs ih =>
    rw [lastIdx_cons] at h
    cases h2 : lastIdx c xs with
    | some j =>
      rw [h2] at h
      simp only [Option.some.injEq] at h
      rw [← h]
      exact ih j h2
    | none =>
      rw [h2] at h
      by_cases hx : x = c
      · rw [if_pos hx] at h
        simp only [Option.some.injEq] at h
        rw [← h]
        simp [hx]
      · rw [if_neg hx] at h
        exact Option.noConfusion h

/-- On a path of the form `stem ++ "." ++ e` with a dot-free, slash-free,
non-empty extension `e` and a basename of `stem` containing a non-dot
character, `splitext` splits exactly at that last dot. -/
theorem splitext_of_ext (stem e : Path) (hnd : '.' ∉ e) (hns : '/' ∉ e)
    (hstem : ∃ c ∈ basename stem, c ≠ '.') :
    splitext (stem ++ '.' :: e) = (stem, '.' :: e) := by
  have hdote : lastIdx '.' ('.' :: e) = some 0 := by
    rw [lastIdx_cons, (lastIdx_eq_none_iff _ _).2 hnd]
    rfl
  have hdot : lastIdx '.' (stem ++ '.' :: e) = some stem.length := by
    have h0 := lastIdx_append_of_mem '.' stem ('.' :: e) 0 hdote
    simpa using h0
  have hns2 : '/' ∉ ('.' :: e) := by
    intro hc
    rcases List.mem_cons.1 hc with h1 | h1
    · exact absurd h1 (by decide)
    · exact hns h1
  have hsep : lastIdx '/' (stem ++ '.' :: e) = lastIdx '/' stem :=
    lastIdx_append_of_not_mem '/' stem ('.' :: e) hns2
  have htake : (stem ++ '.' :: e).take stem.length = stem := by
    rw [List.take_append_of_le_length (Nat.le_refl _), List.take_length]
  have hdrop : (stem ++ '.' :: e).drop stem.length = '.' :: e := by
    have h0 : (stem ++ '.' :: e).drop (stem.length + 0) = ('.' :: e).drop 0 :=
      List.drop_append 0
    rw [Nat.add_zero] at h0
    rw [h0, List.drop_zero]
  cases hsepstem : lastIdx '/' stem with
  | none =>
    have hbn : basename stem = stem := by
      unfold basename
      rw [hsepstem]
    rw [hbn] at hstem
    obtain ⟨c, hc, hcne⟩ := hstem
    simp only [splitext, hdot, hsep, hsepstem]
    rw [if_pos (Nat.zero_le _)]
    rw [if_pos ?hany]
    case hany =>
      simp only [List.drop_zero, Nat.sub_zero, htake]
      exact List.any_eq_true.2 ⟨c, hc, by simp [hcne]⟩
    rw [htake, hdrop]
  | some s =>
    have hslt : s < stem.length := lastIdx_lt_length '/' stem s hsepstem
    have hbn : basename stem = stem.drop (s + 1) := by
      unfold basename
      rw [hsepstem]
    rw [hbn] at hstem
    obtain ⟨c, hc, hcne⟩ := hstem
    have hdropapp : (stem ++ '.' :: e).drop (s + 1) =
        stem.drop (s + 1) ++ '.' :: e :=
      List.drop_append_of_le_length (by omega)
    have htake2 : (stem.drop (s + 1) ++ '.' :: e).take (stem.length - (s + 1)) =
        stem.drop (s + 1) := by
      rw [List.take_append_of_le_length (by simp)]
      rw [show stem.length - (s + 1) = (stem.drop (s + 1)).length from
        (List.length_drop _ _).symm]
      rw [List.take_length]
    simp only [splitext, hdot, hsep, hsepstem]
    rw [if_pos (by omega)]
    rw [if_pos ?hany2]
    case hany2 =>
      rw [hdropapp, htake2]
      exact List.any_eq_true.2 ⟨c, hc, by simp [hcne]⟩
    rw [htake, hdrop]

/-- When the basename of `p` contains no dot, `splitext` finds no
extension. -/
theorem splitext_no_ext (p : Path) (h : '.' ∉ basename p) :
    splitext p = (p, []) := by
  cases hdot : lastIdx '.' p with
  | none => simp only [splitext, hdot]
  | some d =>
    cases hsep : lastIdx '/' p with
    | none =>
      exfalso
      have hbn : basename p = p := by
        unfold basename
        rw [hsep]
      have hmem : '.' ∈ p := List.drop_subset _ _ (lastIdx_mem_drop '.' p d hdot)
      rw [hbn] at h
      exact h hmem
    | some s =>
      have hbn : basename p = p.drop (s + 1) := by
        unfold basename
        rw [hsep]
      by_cases hsd : s + 1 ≤ d
      · exfalso
        have h1 : '.' ∈ p.drop d := lastIdx_mem_drop '.' p d hdot
        have h2 : p.drop d = (p.drop (s + 1)).drop (d - (s + 1)) := by
          rw [List.drop_drop]
          congr 1
          omega
        rw [h2] at h1
        have h3 : '.' ∈ p.drop (s + 1) := List.drop_subset _ _ h1
        rw [hbn] at h
        exact h h3
      · simp only [splitext, hdot, hsep]
        rw [if_neg hsd]

theorem build_part_name_no_ext (p : Path) (i : Nat) (h : '.' ∉ basename p) :
    build_part_name p i = p ++ '.' :: pad2 i := by
  unfold build_part_name
  rw [splitext_no_ext p h]
  simp

theorem pad2_length_two (j : Nat) (h : j < 100) : (pad2 j).length = 2 := by
  unfold pad2
  by_cases hj : j < 10
  · rw [if_pos hj]
    rfl
  · rw [if_neg hj, decDigits_eq, if_neg hj, decDigits_eq,
      if_pos (by omega : j / 10 < 10)]
    rfl

/-- C8: part names are deterministic: for a base path `stem ++ "." ++ e`
(a dot-free, slash-free extension after a basename with a non-dot
character), the zero-padded two-digit index is inserted before the final
extension; for a base path whose basename has no dot at all, the index is
appended as a suffix; the index field is exactly two characters for all
indices below 100. -/
theorem build_part_name_spec (stem e : Path) (i : Nat) (hnd : '.' ∉ e)
    (hns : '/' ∉ e) (hstem : ∃ c ∈ basename stem, c ≠ '.') :
    build_part_name (stem ++ '.' :: e) i =
      stem ++ '.' :: (pad2 i ++ '.' :: e) ∧
    (∀ p : Path, '.' ∉ basename p → build_part_name p i = p ++ '.' :: pad2 i) ∧
    (∀ j, j < 100 → (pad2 j).length = 2) := by
  refine ⟨?_, fun p hp => build_part_name_no_ext p i hp,
    fun j hj => pad2_length_two j hj⟩
  unfold build_part_name
  rw [splitext_of_ext stem e hnd hns hstem]
  simp

/-- C8 witness: `game.nsp` with index 0 yields `game.00.nsp`. -/
theorem build_part_name_spec_witness :
    (build_part_name ("game".data ++ '.' :: "nsp".data) 0 =
      "game".data ++ '.' :: (pad2 0 ++ '.' :: "nsp".data) ∧
    (∀ p : Path, '.' ∉ basename p → build_part_name p 0 = p ++ '.' :: pad2 0) ∧
    (∀ j, j < 100 → (pad2 j).length = 2)) ∧
    build_part_name ("game.nsp".data) 0 = "game.00.nsp".data :=
  ⟨build_part_name_spec ("game".data) ("nsp".data) 0 (by decide) (by decide)
    (by decide), by decide⟩

end NspSplit
